import Mathlib

/-!
Verification of the grouping-and-ranking core of `lsdups-rust` (src/main.rs).

The program walks a directory tree, keeps the entries that pass a pattern
filter and a skip filter, sorts them by size descending, partitions them by
filename into a `HashMap`, computes each bucket's aggregate size, sorts the
buckets by aggregate size descending, and prints the groups that pass a
verbosity/size report filter together with two summary sums.

Shallow embedding choices, each justified against the source:

* `FileRecord` models one discovered entry as consumed by the core: its
  filename key (`e.file_name().to_string_lossy().to_string()`), its byte size
  (`dirent_get_size`, a `u64`), and its path.  Sizes are `Nat`s and every
  64-bit addition is performed modulo `2 ^ 64` (`wrapAdd`), the release-mode
  semantics of Rust's `+` on `u64`.
* The `HashMap` built in `get_filename_grouping` maps each filename to the
  records bearing it, in input order; that bucket is exactly
  `files.filter (·.name == k)`.  The map's `into_iter` enumerates the keys in
  an unspecified order, so the embedding takes that enumeration as an explicit
  parameter `order`, constrained by `validIterOrder`: it lists each present
  filename exactly once.
* Rust's `sort_by` is a stable sort; both sorts (`files.sort_by` in `main` and
  `grouping.sort_by`) are modelled with `List.mergeSort`, which is stable, fed
  the `≤`-shape of the source's descending comparators.
-/

/-- One discovered filesystem entry as the core consumes it: filename key,
byte size (u64), and full path. -/
structure FileRecord where
  name : String
  size : Nat
  path : String
deriving DecidableEq

/-- The modulus of 64-bit unsigned arithmetic. -/
def U64MOD : Nat := 2 ^ 64

/-- Release-mode `u64` addition: `acc + num` wrapping modulo `2 ^ 64`.  This is
the `|acc, num| acc + num` closure of the three `fold(0, ...)` calls in the
source. -/
def wrapAdd (acc num : Nat) : Nat := (acc + num) % U64MOD

/-- `dirent_get_size` (main.rs:109-111): the entry's byte size.  The metadata
read has already succeeded for a validated record; the fallible version is
modelled separately as `dirent_get_size_checked`. -/
def dirent_get_size (r : FileRecord) : Nat := r.size

/-- `compare_direntry` (main.rs:119-121) compares `size(b)` against `size(a)`,
i.e. sorts descending by size.  Modelled as the `≤`-shape fed to the stable
sort: `a` may precede `b` iff `size b ≤ size a`. -/
def compare_direntry (a b : FileRecord) : Bool := decide (dirent_get_size b ≤ dirent_get_size a)

/-- `files.sort_by(|a, b| compare_direntry(a, b))` (main.rs:193): the stable
descending-by-size sort applied in `main` before grouping. -/
def sorted_files (files : List FileRecord) : List FileRecord :=
  files.mergeSort compare_direntry

/-- One element of `FileNameGrouping` (main.rs:14): filename key, aggregate
size, member records. -/
abbrev FileNameGroup := String × Nat × List FileRecord

/-- The `FileNameMapping` bucket for key `k` (main.rs:137-146): the fold
`acc.entry(k).or_insert(vec![]).push(x)` collects, in input order, exactly the
records whose filename is `k`. -/
def bucket (files : List FileRecord) (k : String) : List FileRecord :=
  files.filter (fun r => r.name == k)

/-- The aggregate size of a bucket (main.rs:151-153):
`v.iter().map(|e| dirent_get_size(e)).fold(0, |acc, num| acc + num)`. -/
def vsize_of (v : List FileRecord) : Nat := (v.map dirent_get_size).foldl wrapAdd 0

/-- The comparator of `grouping.sort_by(|a, b| b.1.cmp(&a.1))` (main.rs:160) in
`≤`-shape: `a` may precede `b` iff `b`'s total is at most `a`'s. -/
def grouping_le (a b : FileNameGroup) : Bool := decide (b.2.1 ≤ a.2.1)

/-- A valid enumeration of the `HashMap`'s keys by `into_iter` (main.rs:149):
each filename occurring in the input appears exactly once, in an otherwise
unspecified order. -/
@[reducible] def validIterOrder (files : List FileRecord) (order : List String) : Prop :=
  order.Nodup ∧ (∀ k ∈ order, k ∈ files.map FileRecord.name) ∧ (∀ r ∈ files, r.name ∈ order)

/-- `get_filename_grouping` (main.rs:129-163), parameterised by the map's key
enumeration `order`: build the triple `(k, vsize, v)` for each bucket, then
sort by aggregate size descending with a stable sort. -/
def get_filename_grouping (files : List FileRecord) (order : List String) :
    List FileNameGroup :=
  (order.map (fun k => (k, vsize_of (bucket files k), bucket files k))).mergeSort grouping_le

/-- The report-filter predicate of the print loop (main.rs:216): a group is
emitted iff the `continue` guard `!verbose && val.len() < 2 || vsize <
size_filter` is false. -/
def keep_in_report (verbose : Bool) (size_filter : Nat) (g : FileNameGroup) : Bool :=
  !((!verbose && decide (g.2.2.length < 2)) || decide (g.2.1 < size_filter))

/-- The groups actually printed by the loop at main.rs:214-225, in grouping
order. -/
def report_filter (grouping : List FileNameGroup) (verbose : Bool) (size_filter : Nat) :
    List FileNameGroup :=
  grouping.filter (keep_in_report verbose size_filter)

/-- `total_size` (main.rs:197-200):
`files.iter().map(dirent_get_size).fold(0, +)`. -/
def total_size (files : List FileRecord) : Nat :=
  (files.map dirent_get_size).foldl wrapAdd 0

/-- `total_size_dups` (main.rs:202-205): keep each group's `vsize` when the
group has at least two members, and sum. -/
def total_size_dups (grouping : List FileNameGroup) : Nat :=
  (grouping.filterMap (fun g => if g.2.2.length < 2 then none else some g.2.1)).foldl wrapAdd 0

/-- The skip stage of the traversal pipeline (main.rs:188):
`filter_map(|e| if !is_skip_re_empty && is_filename_a_match(&e, &skip_re)
{None} else {Some(e)})`, with `is_skip_re_empty = skip_pattern.is_empty()`
(main.rs:178) and the regex-match test abstracted as `matches_skip`. -/
def skip_stage {α : Type} (skip_pattern : String) (matches_skip : α → Bool)
    (entries : List α) : List α :=
  entries.filterMap (fun e => if !skip_pattern.isEmpty && matches_skip e then none else some e)

theorem foldl_wrapAdd_aux (l : List Nat) :
    ∀ a : Nat, l.foldl wrapAdd (a % U64MOD) = (a + l.sum) % U64MOD := by
  induction l with
  | nil => intro a; simp
  | cons x xs ih =>
    intro a
    have h1 : wrapAdd (a % U64MOD) x = (a + x) % U64MOD := by
      simp [wrapAdd, Nat.mod_add_mod]
    simp only [List.foldl_cons, h1]
    have h2 := ih (a + x)
    simp only [h2, List.sum_cons]
    ring_nf

theorem foldl_wrapAdd (l : List Nat) : l.foldl wrapAdd 0 = l.sum % U64MOD := by
  have h := foldl_wrapAdd_aux l 0
  simpa using h

theorem vsize_of_eq (v : List FileRecord) :
    vsize_of v = (v.map dirent_get_size).sum % U64MOD := by
  simp [vsize_of, foldl_wrapAdd]

theorem mem_get_filename_grouping {files : List FileRecord} {order : List String}
    {g : FileNameGroup} :
    g ∈ get_filename_grouping files order ↔
      ∃ k ∈ order, g = (k, vsize_of (bucket files k), bucket files k) := by
  simp only [get_filename_grouping, List.mem_mergeSort, List.mem_map]
  constructor
  · rintro ⟨k, hk, rfl⟩
    exact ⟨k, hk, rfl⟩
  · rintro ⟨k, hk, rfl⟩
    exact ⟨k, hk, rfl⟩

theorem keep_in_report_eq (verbose : Bool) (size_filter : Nat) (g : FileNameGroup) :
    keep_in_report verbose size_filter g
      = ((verbose || decide (2 ≤ g.2.2.length)) && decide (size_filter ≤ g.2.1)) := by
  have h2 : (2 ≤ g.2.2.length) ↔ ¬ (g.2.2.length < 2) := by omega
  have h3 : (size_filter ≤ g.2.1) ↔ ¬ (g.2.1 < size_filter) := by omega
  simp only [keep_in_report, h2, h3, decide_not, Bool.not_or, Bool.not_and, Bool.not_not]

/-- Claim C1: a group is retained by the report filter iff
`(verbose || members.length >= 2) && total_size >= min_group_total_size`, and
the filter preserves the relative order of the retained groups (its output is
a sublist of its input). -/
theorem c1_report_filter_iff :
    ∀ (grouping : List FileNameGroup) (verbose : Bool) (size_filter : Nat),
    report_filter grouping verbose size_filter
        = grouping.filter
            (fun g => (verbose || decide (2 ≤ g.2.2.length)) && decide (size_filter ≤ g.2.1))
      ∧ (report_filter grouping verbose size_filter).Sublist grouping := by
  intro grouping verbose size_filter
  constructor
  · unfold report_filter
    exact List.filter_congr (fun g _ => keep_in_report_eq verbose size_filter g)
  · exact List.filter_sublist grouping

/-- Claim C10: when the skip pattern is the empty string, the skip stage passes
every entry unchanged — whatever the compiled skip regex would match — because
the match test is guarded by `!is_skip_re_empty`; and when the pattern is
non-empty the stage is exactly a filter by the negated match test. -/
theorem c10_skip_stage {α : Type} :
    (∀ (matches_skip : α → Bool) (entries : List α),
        skip_stage "" matches_skip entries = entries)
    ∧ (∀ (skip_pattern : String) (matches_skip : α → Bool) (entries : List α),
        skip_pattern.isEmpty = false →
          skip_stage skip_pattern matches_skip entries
            = entries.filter (fun e => !matches_skip e)) := by
  constructor
  · intro matches_skip entries
    have he : ("" : String).isEmpty = true := rfl
    simp [skip_stage, he, List.filterMap_some]
  · intro skip_pattern matches_skip entries hne
    simp only [skip_stage, hne, Bool.not_false, Bool.true_and]
    induction entries with
    | nil => simp
    | cons e es ih =>
      by_cases hm : matches_skip e = true <;>
        simp [List.filterMap_cons, List.filter_cons, hm, ih]

/-- Witness for C10 at a concrete non-empty pattern, match function and entry
list. -/
theorem c10_skip_stage_witness :
    ("x" : String).isEmpty = false
    ∧ skip_stage "x" (fun n : Nat => decide (n = 1)) [1, 2, 3]
        = List.filter (fun n : Nat => !decide (n = 1)) [1, 2, 3] :=
  ⟨by decide, (c10_skip_stage.2 "x" (fun n : Nat => decide (n = 1)) [1, 2, 3]) (by decide)⟩

theorem sum_map_count_ite (x : String) (c : Nat) (order : List String) :
    (order.map (fun k => if x = k then c else 0)).sum = order.count x * c := by
  induction order with
  | nil => simp
  | cons k ks ih =>
    simp only [List.map_cons, List.sum_cons, List.count_cons, ih]
    by_cases h : x = k
    · subst h
      simp [Nat.add_mul, Nat.add_comm]
    · have hk : (k == x) = false := by
        simp [BEq.comm]
        exact h
      simp [h, hk]

theorem count_bucket (files : List FileRecord) (k : String) (r : FileRecord) :
    (bucket files k).count r = if r.name = k then files.count r else 0 := by
  by_cases h : r.name = k
  · rw [if_pos h]
    exact List.count_filter (by simp [h])
  · rw [if_neg h]
    rw [List.count_eq_zero]
    intro hmem
    exact h (by simpa using (List.mem_filter.mp hmem).2)

theorem flatten_buckets_perm (files : List FileRecord) (order : List String)
    (hnd : order.Nodup) (hcov : ∀ r ∈ files, r.name ∈ order) :
    ((order.map (fun k => bucket files k)).flatten).Perm files := by
  rw [List.perm_iff_count]
  intro r
  rw [List.count_flatten, List.map_map]
  have hcomp : order.map (List.count r ∘ fun k => bucket files k)
      = order.map (fun k => if r.name = k then files.count r else 0) :=
    List.map_congr_left (fun k _ => count_bucket files k r)
  rw [hcomp, sum_map_count_ite]
  by_cases hr : r ∈ files
  · rw [List.count_eq_one_of_mem hnd (hcov r hr), Nat.one_mul]
  · rw [List.count_eq_zero.mpr hr, Nat.mul_zero]

/-- Claim C2: for every input and every valid key enumeration, the grouping is
a partition of the input: the concatenation of all member lists is a
permutation of the input (each record appears exactly once across the groups),
no group is empty, and the empty input yields the empty grouping. -/
theorem c2_partition (files : List FileRecord) (order : List String)
    (h : validIterOrder files order) :
    (((get_filename_grouping files order).map (fun g => g.2.2)).flatten).Perm files
    ∧ (∀ g ∈ get_filename_grouping files order, g.2.2 ≠ [])
    ∧ (files = [] → get_filename_grouping files order = []) := by
  obtain ⟨hnd, hsub, hcov⟩ := h
  refine ⟨?_, ?_, ?_⟩
  · have h1 : ((get_filename_grouping files order).map (fun g => g.2.2)).flatten.Perm
        (((order.map (fun k => (k, vsize_of (bucket files k), bucket files k))).map
          (fun g => g.2.2)).flatten) :=
      ((List.mergeSort_perm _ grouping_le).map (fun g => g.2.2)).flatten
    have h2 : ((order.map (fun k => (k, vsize_of (bucket files k), bucket files k))).map
        (fun g => g.2.2)) = order.map (fun k => bucket files k) := by
      rw [List.map_map]
      exact List.map_congr_left (fun k _ => rfl)
    rw [h2] at h1
    exact h1.trans (flatten_buckets_perm files order hnd hcov)
  · intro g hg
    obtain ⟨k, hk, rfl⟩ := mem_get_filename_grouping.mp hg
    obtain ⟨r, hr, hrk⟩ := List.mem_map.mp (hsub k hk)
    have hrb : r ∈ bucket files k := List.mem_filter.mpr ⟨hr, by simp [hrk]⟩
    intro hempty
    rw [show ((k, vsize_of (bucket files k), bucket files k) : FileNameGroup).2.2
        = bucket files k from rfl] at hempty
    rw [hempty] at hrb
    exact List.not_mem_nil r hrb
  · intro hfe
    subst hfe
    have hoe : order = [] := by
      rw [List.eq_nil_iff_forall_not_mem]
      intro k hk
      simpa using hsub k hk
    subst hoe
    simp [get_filename_grouping]

/-- Scenario 1 of the spec: two files named `a.txt` and one named `b.txt`. -/
def exFiles : List FileRecord :=
  [⟨"a.txt", 100, "/x/a.txt"⟩, ⟨"a.txt", 200, "/y/a.txt"⟩, ⟨"b.txt", 50, "/x/b.txt"⟩]

/-- A valid key enumeration for `exFiles`. -/
def exOrder : List String := ["a.txt", "b.txt"]

/-- Witness for C2 at the concrete scenario-1 input. -/
theorem c2_partition_witness :
    validIterOrder exFiles exOrder
    ∧ ((((get_filename_grouping exFiles exOrder).map (fun g => g.2.2)).flatten).Perm exFiles
       ∧ (∀ g ∈ get_filename_grouping exFiles exOrder, g.2.2 ≠ [])
       ∧ (exFiles = [] → get_filename_grouping exFiles exOrder = [])) :=
  ⟨by decide, c2_partition exFiles exOrder (by decide)⟩

/-- Claim C3: for every input, every valid key enumeration and every group of
the resulting grouping, the group's aggregate `vsize` equals the sum of its
members' sizes in 64-bit unsigned (wrapping) arithmetic. -/
theorem c3_group_total (files : List FileRecord) (order : List String) (g : FileNameGroup)
    (hg : g ∈ get_filename_grouping files order) :
    g.2.1 = (g.2.2.map dirent_get_size).sum % U64MOD := by
  obtain ⟨k, _, rfl⟩ := mem_get_filename_grouping.mp hg
  exact vsize_of_eq (bucket files k)

/-- Witness for C3 at the concrete scenario-1 input. -/
theorem c3_group_total_witness :
    (("a.txt", vsize_of (bucket exFiles "a.txt"), bucket exFiles "a.txt") : FileNameGroup)
        ∈ get_filename_grouping exFiles exOrder
    ∧ (("a.txt", vsize_of (bucket exFiles "a.txt"), bucket exFiles "a.txt") :
          FileNameGroup).2.1
        = ((("a.txt", vsize_of (bucket exFiles "a.txt"), bucket exFiles "a.txt") :
            FileNameGroup).2.2.map dirent_get_size).sum % U64MOD := by
  have hm : (("a.txt", vsize_of (bucket exFiles "a.txt"), bucket exFiles "a.txt") :
      FileNameGroup) ∈ get_filename_grouping exFiles exOrder :=
    mem_get_filename_grouping.mpr ⟨"a.txt", by decide, rfl⟩
  exact ⟨hm, c3_group_total exFiles exOrder _ hm⟩

theorem total_size_dups_filterMap (grouping : List FileNameGroup) :
    grouping.filterMap (fun g => if g.2.2.length < 2 then none else some g.2.1)
      = (grouping.filter (fun g => decide (2 ≤ g.2.2.length))).map (fun g => g.2.1) := by
  induction grouping with
  | nil => simp
  | cons g gs ih =>
    by_cases h : g.2.2.length < 2
    · have h2 : ¬ (2 ≤ g.2.2.length) := by omega
      simp [List.filterMap_cons, List.filter_cons, h, h2, ih]
    · have h2 : 2 ≤ g.2.2.length := by omega
      simp [List.filterMap_cons, List.filter_cons, h, h2, ih]

/-- Claim C5: the summary's `total_size` is the flat (wrapping) sum of all
record sizes — stated both on the raw record list and on the sorted list
`main` actually folds over, the two being equal — and `total_size_dups` is the
(wrapping) sum of `vsize` over exactly the groups with at least two members. -/
theorem c5_summary (files : List FileRecord) (grouping : List FileNameGroup) :
    total_size files = ((files.map dirent_get_size).sum) % U64MOD
    ∧ total_size (sorted_files files) = ((files.map dirent_get_size).sum) % U64MOD
    ∧ total_size_dups grouping
        = (((grouping.filter (fun g => decide (2 ≤ g.2.2.length))).map
            (fun g => g.2.1)).sum) % U64MOD := by
  refine ⟨foldl_wrapAdd _, ?_, ?_⟩
  · rw [total_size, foldl_wrapAdd]
    have hp : ((sorted_files files).map dirent_get_size).Perm (files.map dirent_get_size) :=
      (List.mergeSort_perm files compare_direntry).map dirent_get_size
    rw [hp.sum_eq]
  · rw [total_size_dups, total_size_dups_filterMap, foldl_wrapAdd]

theorem grouping_le_trans :
    ∀ a b c : FileNameGroup, grouping_le a b → grouping_le b c → grouping_le a c := by
  intro a b c hab hbc
  simp only [grouping_le, decide_eq_true_eq] at *
  omega

theorem grouping_le_total : ∀ a b : FileNameGroup, grouping_le a b || grouping_le b a := by
  intro a b
  simp only [grouping_le, Bool.or_eq_true, decide_eq_true_eq]
  omega

theorem compare_direntry_trans :
    ∀ a b c : FileRecord, compare_direntry a b → compare_direntry b c → compare_direntry a c := by
  intro a b c hab hbc
  simp only [compare_direntry, decide_eq_true_eq] at *
  omega

theorem compare_direntry_total :
    ∀ a b : FileRecord, compare_direntry a b || compare_direntry b a := by
  intro a b
  simp only [compare_direntry, Bool.or_eq_true, decide_eq_true_eq]
  omega

theorem grouping_sorted (files : List FileRecord) (order : List String) :
    (get_filename_grouping files order).Pairwise (fun a b => b.2.1 ≤ a.2.1) := by
  have h := List.sorted_mergeSort grouping_le_trans grouping_le_total
      (order.map (fun k => (k, vsize_of (bucket files k), bucket files k)))
  exact h.imp (fun hab => of_decide_eq_true hab)

theorem sorted_files_pairwise (files : List FileRecord) :
    (sorted_files files).Pairwise (fun a b => dirent_get_size b ≤ dirent_get_size a) := by
  have h := List.sorted_mergeSort compare_direntry_trans compare_direntry_total files
  exact h.imp (fun hab => of_decide_eq_true hab)

/-- An input on which the grouping engine, called directly (without `main`'s
preliminary size sort), leaves a group's members in ascending size order. -/
def c4Files : List FileRecord := [⟨"a", 1, "p1"⟩, ⟨"a", 2, "p2"⟩]

/-- Counterexample to C4 as stated: with no ordering precondition on the
input, `get_filename_grouping` does not sort members — on `c4Files` (sizes 1
then 2, same name) the single group's member list is not non-increasing in
size. -/
theorem c4_counterexample :
    validIterOrder c4Files ["a"]
    ∧ ¬ (∀ g ∈ get_filename_grouping c4Files ["a"],
          g.2.2.Pairwise (fun a b => dirent_get_size b ≤ dirent_get_size a)) := by
  refine ⟨by decide, ?_⟩
  intro h
  have e1 : get_filename_grouping c4Files ["a"]
      = ["a"].map (fun k => (k, vsize_of (bucket c4Files k), bucket c4Files k)) :=
    List.mergeSort_of_sorted (by decide)
  have hg := h ("a", vsize_of (bucket c4Files "a"), bucket c4Files "a")
    (by rw [e1]; exact List.mem_map.mpr ⟨"a", List.mem_singleton_self "a", rfl⟩)
  revert hg
  decide

/-- Claim C4 (amended): for every input and valid key enumeration the groups
are non-increasing in `total_size`; member lists keep the input order of the
record list handed to the grouping, so when that list is `main`'s
size-descending sorted file list, every group's members are non-increasing in
size, and records of equal size keep their relative discovery order (the sort
is stable). -/
theorem c4_amended (files : List FileRecord) (order : List String) :
    (get_filename_grouping files order).Pairwise (fun a b => b.2.1 ≤ a.2.1)
    ∧ (∀ g ∈ get_filename_grouping (sorted_files files) order,
        g.2.2.Pairwise (fun a b => dirent_get_size b ≤ dirent_get_size a))
    ∧ (∀ g ∈ get_filename_grouping (sorted_files files) order, ∀ r s : FileRecord,
        [r, s].Sublist files → dirent_get_size r = dirent_get_size s →
          r.name = g.1 → s.name = g.1 → [r, s].Sublist g.2.2) := by
  refine ⟨grouping_sorted files order, ?_, ?_⟩
  · intro g hg
    obtain ⟨k, _, rfl⟩ := mem_get_filename_grouping.mp hg
    exact List.Pairwise.sublist (List.filter_sublist _) (sorted_files_pairwise files)
  · intro g hg r s hsub hsz hr hs
    obtain ⟨k, _, rfl⟩ := mem_get_filename_grouping.mp hg
    have hr2 : r.name = k := hr
    have hs2 : s.name = k := hs
    have hpair : ([r, s] : List FileRecord).Pairwise (fun a b => compare_direntry a b = true) := by
      refine List.Pairwise.cons ?_ (List.pairwise_singleton _ _)
      intro x hx
      rw [List.mem_singleton] at hx
      subst hx
      simp [compare_direntry, hsz]
    have h1 : [r, s].Sublist (sorted_files files) :=
      List.sublist_mergeSort compare_direntry_trans compare_direntry_total hpair hsub
    have h2 : ([r, s].filter (fun x => x.name == k)).Sublist (bucket (sorted_files files) k) :=
      h1.filter _
    rw [show ([r, s].filter (fun x => x.name == k)) = [r, s] from by
      simp [List.filter, hr2, hs2]] at h2
    exact h2

/-- A size-descending input with an equal-size tie, for the C4 witness. -/
def c4wFiles : List FileRecord := [⟨"a", 7, "p1"⟩, ⟨"a", 7, "p2"⟩]

/-- Witness for the amended C4 at a concrete input. -/
theorem c4_amended_witness :
    (get_filename_grouping c4wFiles ["a"]).Pairwise (fun a b => b.2.1 ≤ a.2.1)
    ∧ (("a", vsize_of (bucket (sorted_files c4wFiles) "a"),
          bucket (sorted_files c4wFiles) "a") : FileNameGroup).2.2.Pairwise
        (fun a b => dirent_get_size b ≤ dirent_get_size a)
    ∧ ([⟨"a", 7, "p1"⟩, ⟨"a", 7, "p2"⟩] : List FileRecord).Sublist
        (("a", vsize_of (bucket (sorted_files c4wFiles) "a"),
          bucket (sorted_files c4wFiles) "a") : FileNameGroup).2.2 := by
  have hm : (("a", vsize_of (bucket (sorted_files c4wFiles) "a"),
      bucket (sorted_files c4wFiles) "a") : FileNameGroup)
      ∈ get_filename_grouping (sorted_files c4wFiles) ["a"] :=
    mem_get_filename_grouping.mpr ⟨"a", by decide, rfl⟩
  obtain ⟨h1, h2, h3⟩ := c4_amended c4wFiles ["a"]
  refine ⟨h1, h2 _ hm, ?_⟩
  exact h3 _ hm ⟨"a", 7, "p1"⟩ ⟨"a", 7, "p2"⟩ (List.Sublist.refl c4wFiles) rfl rfl rfl

theorem vsize_bucket_perm {files₁ files₂ : List FileRecord} (hp : files₁.Perm files₂)
    (k : String) : vsize_of (bucket files₁ k) = vsize_of (bucket files₂ k) := by
  have hb : (bucket files₁ k).Perm (bucket files₂ k) := hp.filter _
  rw [vsize_of_eq, vsize_of_eq, (hb.map dirent_get_size).sum_eq]

/-- Claim C6: permuting the input record list yields the same set of groups —
the same filename keys, and for groups with a common key the same aggregate
size and members equal as multisets. -/
theorem c6_perm_invariance (files₁ files₂ : List FileRecord) (o₁ o₂ : List String)
    (hp : files₁.Perm files₂) (h₁ : validIterOrder files₁ o₁)
    (h₂ : validIterOrder files₂ o₂) :
    (∀ k : String,
        (∃ g ∈ get_filename_grouping files₁ o₁, g.1 = k)
          ↔ (∃ g ∈ get_filename_grouping files₂ o₂, g.1 = k))
    ∧ (∀ g₁ ∈ get_filename_grouping files₁ o₁, ∀ g₂ ∈ get_filename_grouping files₂ o₂,
        g₁.1 = g₂.1 → g₁.2.1 = g₂.2.1 ∧ g₁.2.2.Perm g₂.2.2) := by
  obtain ⟨hnd₁, hsub₁, hcov₁⟩ := h₁
  obtain ⟨hnd₂, hsub₂, hcov₂⟩ := h₂
  constructor
  · have hmem : ∀ (files : List FileRecord) (order : List String),
        (∀ k2 ∈ order, k2 ∈ files.map FileRecord.name) →
        (∀ r ∈ files, r.name ∈ order) → ∀ k : String,
        ((∃ g ∈ get_filename_grouping files order, g.1 = k)
          ↔ k ∈ files.map FileRecord.name) := by
      intro files order hsub hcov k
      constructor
      · rintro ⟨g, hg, rfl⟩
        obtain ⟨k2, hk2, rfl⟩ := mem_get_filename_grouping.mp hg
        exact hsub k2 hk2
      · intro hk
        obtain ⟨r, hr, hrk⟩ := List.mem_map.mp hk
        exact ⟨(r.name, vsize_of (bucket files r.name), bucket files r.name),
          mem_get_filename_grouping.mpr ⟨r.name, hcov r hr, rfl⟩, hrk⟩
    intro k
    rw [hmem files₁ o₁ hsub₁ hcov₁ k, hmem files₂ o₂ hsub₂ hcov₂ k]
    exact (hp.map FileRecord.name).mem_iff
  · intro g₁ hg₁ g₂ hg₂ hk
    obtain ⟨k₁, _, rfl⟩ := mem_get_filename_grouping.mp hg₁
    obtain ⟨k₂, _, rfl⟩ := mem_get_filename_grouping.mp hg₂
    have hk2 : k₁ = k₂ := hk
    subst hk2
    exact ⟨vsize_bucket_perm hp k₁, hp.filter _⟩

/-- A permutation of the scenario-1 records, with a matching key enumeration. -/
def c6Files2 : List FileRecord :=
  [⟨"b.txt", 50, "/x/b.txt"⟩, ⟨"a.txt", 200, "/y/a.txt"⟩, ⟨"a.txt", 100, "/x/a.txt"⟩]

/-- The key enumeration used for `c6Files2`. -/
def c6Order2 : List String := ["b.txt", "a.txt"]

/-- Witness for C6 at a concrete pair of permuted inputs. -/
theorem c6_perm_invariance_witness :
    exFiles.Perm c6Files2
    ∧ validIterOrder exFiles exOrder
    ∧ validIterOrder c6Files2 c6Order2
    ∧ ((∀ k : String,
          (∃ g ∈ get_filename_grouping exFiles exOrder, g.1 = k)
            ↔ (∃ g ∈ get_filename_grouping c6Files2 c6Order2, g.1 = k))
       ∧ (∀ g₁ ∈ get_filename_grouping exFiles exOrder,
            ∀ g₂ ∈ get_filename_grouping c6Files2 c6Order2,
            g₁.1 = g₂.1 → g₁.2.1 = g₂.2.1 ∧ g₁.2.2.Perm g₂.2.2)) :=
  ⟨by decide, by decide, by decide,
    c6_perm_invariance exFiles c6Files2 exOrder c6Order2 (by decide) (by decide) (by decide)⟩

/-- Two groups with equal totals: files `a` and `b`, one byte each. -/
def c7Files : List FileRecord := [⟨"a", 1, "pa"⟩, ⟨"b", 1, "pb"⟩]

/-- Counterexample to C7 as stated: the sort at main.rs:160 is stable over the
backing `HashMap`'s unspecified iteration order, so two valid key enumerations
of the same map yield groups with equal totals in different orders — there is
no deterministic first-seen tie-break in the code. -/
theorem c7_counterexample :
    validIterOrder c7Files ["a", "b"]
    ∧ validIterOrder c7Files ["b", "a"]
    ∧ get_filename_grouping c7Files ["a", "b"] ≠ get_filename_grouping c7Files ["b", "a"] := by
  refine ⟨by decide, by decide, ?_⟩
  have e1 : get_filename_grouping c7Files ["a", "b"]
      = ["a", "b"].map (fun k => (k, vsize_of (bucket c7Files k), bucket c7Files k)) :=
    List.mergeSort_of_sorted (by decide)
  have e2 : get_filename_grouping c7Files ["b", "a"]
      = ["b", "a"].map (fun k => (k, vsize_of (bucket c7Files k), bucket c7Files k)) :=
    List.mergeSort_of_sorted (by decide)
  rw [e1, e2]
  decide

theorem valid_orders_perm {files : List FileRecord} {o₁ o₂ : List String}
    (h₁ : validIterOrder files o₁) (h₂ : validIterOrder files o₂) : o₁.Perm o₂ := by
  obtain ⟨hnd₁, hsub₁, hcov₁⟩ := h₁
  obtain ⟨hnd₂, hsub₂, hcov₂⟩ := h₂
  rw [List.perm_iff_count]
  intro k
  by_cases hk : k ∈ files.map FileRecord.name
  · obtain ⟨r, hr, hrk⟩ := List.mem_map.mp hk
    rw [List.count_eq_one_of_mem hnd₁ (hrk ▸ hcov₁ r hr),
      List.count_eq_one_of_mem hnd₂ (hrk ▸ hcov₂ r hr)]
  · rw [List.count_eq_zero.mpr (fun hmem => hk (hsub₁ k hmem)),
      List.count_eq_zero.mpr (fun hmem => hk (hsub₂ k hmem))]

/-- Claim C7 (amended): the group order is total-size descending, and it is
stable over the backing map's key enumeration; that enumeration is unspecified
rather than a deterministic first-seen rule, so two runs agree only up to a
permutation (a reordering among equal-total groups): any two valid
enumerations yield groupings that are permutations of each other, both sorted
non-increasing by total. -/
theorem c7_amended (files : List FileRecord) (o₁ o₂ : List String)
    (h₁ : validIterOrder files o₁) (h₂ : validIterOrder files o₂) :
    (get_filename_grouping files o₁).Perm (get_filename_grouping files o₂)
    ∧ (get_filename_grouping files o₁).Pairwise (fun a b => b.2.1 ≤ a.2.1)
    ∧ (get_filename_grouping files o₂).Pairwise (fun a b => b.2.1 ≤ a.2.1) := by
  refine ⟨?_, grouping_sorted files o₁, grouping_sorted files o₂⟩
  have hoo := valid_orders_perm h₁ h₂
  have h1 : (get_filename_grouping files o₁).Perm
      (o₁.map (fun k => (k, vsize_of (bucket files k), bucket files k))) :=
    List.mergeSort_perm _ _
  have h2 := hoo.map (fun k => (k, vsize_of (bucket files k), bucket files k))
  have h3 : (get_filename_grouping files o₂).Perm
      (o₂.map (fun k => (k, vsize_of (bucket files k), bucket files k))) :=
    List.mergeSort_perm _ _
  exact h1.trans (h2.trans h3.symm)

/-- Witness for the amended C7 at the concrete equal-total input. -/
theorem c7_amended_witness :
    validIterOrder c7Files ["a", "b"]
    ∧ validIterOrder c7Files ["b", "a"]
    ∧ ((get_filename_grouping c7Files ["a", "b"]).Perm
          (get_filename_grouping c7Files ["b", "a"])
       ∧ (get_filename_grouping c7Files ["a", "b"]).Pairwise (fun a b => b.2.1 ≤ a.2.1)
       ∧ (get_filename_grouping c7Files ["b", "a"]).Pairwise (fun a b => b.2.1 ≤ a.2.1)) :=
  ⟨by decide, by decide,
    c7_amended c7Files ["a", "b"] ["b", "a"] (by decide) (by decide)⟩

/-- A raw directory entry before size validation.  `meta` is the outcome of
`ent.metadata().map(|m| m.len())`: `none` models a failed metadata read, on
which the `.unwrap()` inside `dirent_get_size` (main.rs:110) would panic. -/
structure DirEntry where
  name : String
  meta : Option Nat
  path : String
deriving DecidableEq

/-- `dirent_get_size` on a raw entry, the `.unwrap()` panic modelled as `none`
propagation. -/
def dirent_get_size_checked (e : DirEntry) : Option Nat := e.meta

/-- The `FileNameMapping` bucket over raw entries. -/
def bucket_entries (files : List DirEntry) (k : String) : List DirEntry :=
  files.filter (fun e => e.name == k)

/-- An iterator `map` over a fallible per-element computation, collected: any
would-be panic aborts the whole computation with `none`. -/
def map_checked {α β : Type} (f : α → Option β) : List α → Option (List β)
  | [] => some []
  | x :: xs =>
    match f x, map_checked f xs with
    | some y, some ys => some (y :: ys)
    | _, _ => none

/-- The bucket-total fold of main.rs:151-153 with explicit panic propagation. -/
def vsize_checked (v : List DirEntry) : Option Nat :=
  (map_checked dirent_get_size_checked v).map (fun sizes => sizes.foldl wrapAdd 0)

/-- The group comparator over raw-entry groups. -/
def grouping_le_entries (a b : String × Nat × List DirEntry) : Bool := decide (b.2.1 ≤ a.2.1)

/-- `get_filename_grouping` (main.rs:129-163) over raw entries with explicit
panic propagation through every size read. -/
def get_filename_grouping_checked (files : List DirEntry) (order : List String) :
    Option (List (String × Nat × List DirEntry)) :=
  (map_checked (fun k => (vsize_checked (bucket_entries files k)).map
      (fun t => (k, t, bucket_entries files k))) order).map
    (fun groups => groups.mergeSort grouping_le_entries)

/-- The `total_size` fold of main.rs:197-200 with explicit panic propagation. -/
def total_size_checked (files : List DirEntry) : Option Nat :=
  (map_checked dirent_get_size_checked files).map (fun sizes => sizes.foldl wrapAdd 0)

theorem map_checked_isSome {α β : Type} (f : α → Option β) (l : List α)
    (h : ∀ x ∈ l, (f x).isSome) : (map_checked f l).isSome := by
  induction l with
  | nil => simp [map_checked]
  | cons x xs ih =>
    have hx := h x (List.mem_cons_self x xs)
    have hxs := ih (fun y hy => h y (List.mem_cons_of_mem x hy))
    obtain ⟨y, hy⟩ := Option.isSome_iff_exists.mp hx
    obtain ⟨ys, hys⟩ := Option.isSome_iff_exists.mp hxs
    simp only [map_checked, hy, hys]
    rfl

/-- Claim C8: on a valid input record set — every entry's metadata read
succeeds, so all sizes are in-memory 64-bit values — the core cannot fail: the
grouping (with its bucket-total folds and its sort) and the summary fold reach
no panic path and produce a result. -/
theorem c8_core_total (files : List DirEntry) (order : List String)
    (h : ∀ e ∈ files, (dirent_get_size_checked e).isSome) :
    (get_filename_grouping_checked files order).isSome
    ∧ (total_size_checked files).isSome := by
  constructor
  · rw [get_filename_grouping_checked, Option.isSome_map']
    apply map_checked_isSome
    intro k _
    rw [Option.isSome_map', vsize_checked, Option.isSome_map']
    apply map_checked_isSome
    intro e he
    exact h e (List.mem_of_mem_filter he)
  · rw [total_size_checked, Option.isSome_map']
    exact map_checked_isSome _ _ h

/-- Concrete raw entries whose metadata reads all succeed. -/
def c8Files : List DirEntry := [⟨"a", some 3, "p1"⟩, ⟨"a", some 5, "p2"⟩]

/-- Witness for C8 at a concrete valid entry list. -/
theorem c8_core_total_witness :
    (∀ e ∈ c8Files, (dirent_get_size_checked e).isSome)
    ∧ ((get_filename_grouping_checked c8Files ["a"]).isSome
       ∧ (total_size_checked c8Files).isSome) :=
  ⟨by decide, c8_core_total c8Files ["a"] (by decide)⟩

/-- Two valid `u64` sizes whose sum, `2 ^ 64 + 5`, exceeds `2 ^ 64 - 1`. -/
def c9Files : List FileRecord := [⟨"a", 2 ^ 63, "p1"⟩, ⟨"a", 2 ^ 63 + 5, "p2"⟩]

/-- Claim C9 evaluated at the failing input: the true size sum is
`2 ^ 64 + 5`, yet both the group total and the summary total come out as the
wrapped value `5` — the computation completes and silently wraps modulo
`2 ^ 64` instead of asserting. -/
theorem c9_overflow_wraps :
    (c9Files.map dirent_get_size).sum = 2 ^ 64 + 5
    ∧ total_size c9Files = 5
    ∧ get_filename_grouping c9Files ["a"] = [("a", 5, c9Files)] := by
  refine ⟨by decide, by decide, ?_⟩
  have e1 : get_filename_grouping c9Files ["a"]
      = ["a"].map (fun k => (k, vsize_of (bucket c9Files k), bucket c9Files k)) :=
    List.mergeSort_of_sorted (by decide)
  rw [e1]
  decide
